import Mathlib

/-!
Verification of the Font-Scraper raster-to-font core pipeline.

The development shallowly embeds the pipeline of `src/services/imageService.ts`
and the batch orchestration of the application component (`handleFetchAndProcessCharacters`
and `handleAssembleFontFile`):
background removal and cropping (`processImage`), baseline calibration
(the mode of the collected `maxY` values), scanline vectorization
(`imageDataToOpentypePath`), the per-glyph transforms (`scalePath`,
`translatePath`) and the glyph-table part of font assembly (`assembleTtfFont`).

Modelling conventions:
- JS numbers are modelled as `ℚ` (exact) where fractional values occur, `ℤ`
  where the source only ever holds integers, and `ℕ` for sizes and indices.
  `Math.round` is `round` (both equal `⌊x + 1/2⌋`, including for negative
  halves), `Math.floor` on nonnegative integers divided by an integer is `ℕ`
  division, `Math.max` is `max`.
- An `ImageData` is its flat RGBA byte array together with its dimensions,
  exactly as in the DOM API; byte reads outside the array default to 0
  (the DOM yields transparent black outside the canvas).
- The opentype.js `Path` is its list of commands (`moveTo` / `lineTo` /
  `curveTo` / `quadTo` / `closePath`); building the binary sfnt container is
  outside the model, which stops at the glyph table handed to `opentype.Font`.
-/

/-! ## Constants (from `imageService.ts` and the application component) -/

def RENDER_SIZE : ℕ := 256

def BG_COLOR_R : ℕ := 255

def BG_COLOR_G : ℕ := 255

def BG_COLOR_B : ℕ := 255

def BG_COLOR_TOLERANCE : ℕ := 15

def UNITS_PER_EM : ℕ := 256

/-! ## Image data (Foreground Extractor, `processImage`) -/

/-- A decoded bitmap: dimensions plus the flat row-major RGBA byte array,
as in the DOM `ImageData` type. -/
structure ImageData where
  width : ℕ
  height : ℕ
  data : List ℕ
deriving DecidableEq

/-- Read byte `i` of the image, 0 when out of range. -/
def byteAt (img : ImageData) (i : ℕ) : ℕ := img.data.getD i 0

/-- Byte index of pixel `(x, y)`: the source computes `(y * width + x) * 4`. -/
def pixIdx (img : ImageData) (x y : ℕ) : ℕ := (y * img.width + x) * 4

/-- Background classification of `processImage`: all three colour channels
within `BG_COLOR_TOLERANCE` of white, alpha ignored. -/
def isBackgroundRGB (r g b : ℕ) : Bool :=
  decide (BG_COLOR_R - BG_COLOR_TOLERANCE ≤ r) && decide (r ≤ BG_COLOR_R + BG_COLOR_TOLERANCE) &&
  decide (BG_COLOR_G - BG_COLOR_TOLERANCE ≤ g) && decide (g ≤ BG_COLOR_G + BG_COLOR_TOLERANCE) &&
  decide (BG_COLOR_B - BG_COLOR_TOLERANCE ≤ b) && decide (b ≤ BG_COLOR_B + BG_COLOR_TOLERANCE)

/-- Whether the pixel at `(x, y)` is classified as background. -/
def isBgAt (img : ImageData) (x y : ℕ) : Bool :=
  isBackgroundRGB (byteAt img (pixIdx img x y)) (byteAt img (pixIdx img x y + 1))
    (byteAt img (pixIdx img x y + 2))

/-- The scan order of the double loop in `processImage`: `y` outer, `x` inner,
pairs `(x_coord, y_coord)`. -/
def scanCoords (w h : ℕ) : List (ℕ × ℕ) :=
  (List.range h).flatMap (fun y => (List.range w).map (fun x => (x, y)))

/-- The four bounding-box accumulators of `processImage`. -/
structure BBox where
  minX : ℤ
  minY : ℤ
  maxX : ℤ
  maxY : ℤ
deriving DecidableEq

/-- One step of the bounding-box loop: background pixels leave the box
unchanged, foreground pixels update the four comparisons of the source. -/
def bboxStep (img : ImageData) (acc : BBox) (p : ℕ × ℕ) : BBox :=
  if isBgAt img p.1 p.2 then acc
  else
    { minX := if (p.1 : ℤ) < acc.minX then (p.1 : ℤ) else acc.minX,
      maxX := if acc.maxX < (p.1 : ℤ) then (p.1 : ℤ) else acc.maxX,
      minY := if (p.2 : ℤ) < acc.minY then (p.2 : ℤ) else acc.minY,
      maxY := if acc.maxY < (p.2 : ℤ) then (p.2 : ℤ) else acc.maxY }

/-- The bounding-box scan of `processImage`, starting from
`minX = width, minY = height, maxX = -1, maxY = -1`. -/
def scanBBox (img : ImageData) : BBox :=
  (scanCoords img.width img.height).foldl (bboxStep img) ⟨img.width, img.height, -1, -1⟩

/-- The background-removal side effect of the scan: the alpha byte of every
background pixel is set to 0 (`data[i + 3] = 0`), all other bytes unchanged. -/
def stripBgData (img : ImageData) : List ℕ :=
  img.data.mapIdx (fun i v =>
    if i % 4 == 3 && isBgAt img ((i / 4) % img.width) ((i / 4) / img.width) then 0 else v)

/-- The `getImageData(sx, sy, cw, ch)` read used for cropping: a `cw × ch`
sub-rectangle of a canvas of width `w` holding byte array `data`. -/
def subImageData (w : ℕ) (data : List ℕ) (sx sy cw ch : ℕ) : List ℕ :=
  (List.range ch).flatMap (fun yy =>
    (List.range cw).flatMap (fun xx =>
      (List.range 4).map (fun c => data.getD (((sy + yy) * w + (sx + xx)) * 4 + c) 0)))

/-- The `ProcessedCharacter` record of `types.ts`. -/
structure ProcessedCharacter where
  char : String
  imageData : ImageData
  width : ℕ
  height : ℕ
  maxY : ℤ
deriving DecidableEq

/-- The `createImageData(1, 1)` result with `data[3] = 0`: a 1×1 fully
transparent bitmap (`createImageData` zero-initialises). -/
def emptyProcessedImageData : ImageData := ⟨1, 1, [0, 0, 0, 0]⟩

/-- The Foreground Extractor, `processImage` of `imageService.ts`.
`Int.toNat` on the crop dimensions and corners is harmless: in the branch
where it is applied the bounding box is attained by a foreground pixel, so
all four values are nonnegative. -/
def processImage (img : ImageData) : ProcessedCharacter :=
  let bb := scanBBox img
  if bb.maxX = -1 ∨ bb.maxY = -1 then
    { char := " ", imageData := emptyProcessedImageData, width := 1, height := 1, maxY := -1 }
  else
    let croppedWidth := (max 1 (bb.maxX - bb.minX + 1)).toNat
    let croppedHeight := (max 1 (bb.maxY - bb.minY + 1)).toNat
    let strippedData := stripBgData img
    { char := "",
      imageData := ⟨croppedWidth, croppedHeight,
        subImageData img.width strippedData bb.minX.toNat bb.minY.toNat croppedWidth croppedHeight⟩,
      width := croppedWidth, height := croppedHeight, maxY := bb.maxY }

/-- The pixels of the image classified as foreground, in scan order. -/
def fgPixels (img : ImageData) : List (ℕ × ℕ) :=
  (scanCoords img.width img.height).filter (fun p => !(isBgAt img p.1 p.2))

/-! ## Baseline Calibrator (`handleFetchAndProcessCharacters`, stage-1 epilogue)

The source builds `counts`, a plain JS object keyed by the collected `maxY`
values, and then reduces over `Object.keys(counts)`.  The collected values are
nonnegative integers (canvas row indices; `-1` entries are excluded before
collection), so every key is an array-index key and `Object.keys` enumerates
them in ascending numeric order.  `jsObjectKeys` reproduces that enumeration:
the distinct values of the list, ascending. -/

/-- Ascending enumeration of the distinct values of `l`, as `Object.keys` does
for a JS object keyed by nonnegative integers. -/
def jsObjectKeys (l : List ℕ) : List ℕ :=
  (List.range (l.foldr max 0 + 1)).filter (fun k => l.contains k)

/-- The reduction `keys.reduce((a, b) => counts[a] > counts[b] ? a : b)`:
`counts[v]` is the multiplicity of `v` in the collected list, and on a tie the
later (larger) key wins.  JS `reduce` without an initial value throws on an
empty array; the source guards this with `maxYValues.length > 0`, and the `[]`
branch here is never reached from `computeBaselineY`. -/
def pickModeKey (l : List ℕ) : ℕ :=
  match jsObjectKeys l with
  | [] => 0
  | k :: ks => ks.foldl (fun a b => if l.count a > l.count b then a else b) k

/-- The baseline computation of the source: `baselineY` starts at `0` and is
replaced by the mode of the collected values when the list is non-empty.
The subsequent `if (isNaN(baselineY)) baselineY = RENDER_SIZE * 0.8` of the
source is modelled as unreachable: `parseInt` of a decimal integer key never
yields `NaN`, and `isNaN(0)` is false, so neither branch outcome is `NaN`
and the fallback assignment never executes. -/
def computeBaselineY (l : List ℕ) : ℚ :=
  if 0 < l.length then (pickModeKey l : ℚ) else 0

/-! ## Outline Tracer (`imageDataToOpentypePath`) -/

/-- Alpha byte of pixel `(x, y)`. -/
def alphaAt (img : ImageData) (x y : ℕ) : ℕ := byteAt img (pixIdx img x y + 3)

/-- The opacity test of the tracer: `alpha > 128`. -/
def isOpaqueAt (img : ImageData) (x y : ℕ) : Bool := decide (128 < alphaAt img x y)

/-- Row `y` of the image as its list of opacity bits, left to right. -/
def rowBools (img : ImageData) (y : ℕ) : List Bool := (List.range img.width).map (fun x => isOpaqueAt img x y)

/-- The scanning loop of the tracer over one row, starting at column `i`:
on an opaque pixel the inner `while` consumes the whole opaque run and one
`(runStart, runEnd)` pair is emitted; on a transparent pixel the scan moves on. -/
def runsFrom (bs : List Bool) (i : ℕ) : List (ℕ × ℕ) :=
  match bs with
  | [] => []
  | b :: rest =>
    if b then
      let runLen := 1 + (rest.takeWhile (fun c => c)).length
      (i, i + runLen - 1) :: runsFrom (rest.dropWhile (fun c => c)) (i + runLen)
    else
      runsFrom rest (i + 1)
termination_by bs.length
decreasing_by
  · simpa using Nat.lt_succ_of_le ((rest.dropWhile_sublist (fun c => c)).length_le)
  · simp

/-- An opentype.js path command. -/
inductive PathCmd where
  | move (x y : ℚ)
  | line (x y : ℚ)
  | curve (x1 y1 x2 y2 x y : ℚ)
  | quad (x1 y1 x y : ℚ)
  | close
deriving DecidableEq

/-- The five commands the tracer emits for one run:
`moveTo(runStart, yBot); lineTo(runEnd + 1, yBot); lineTo(runEnd + 1, yTop);
lineTo(runStart, yTop); closePath()`. -/
def rectCmds (runStart runEnd : ℕ) (yBot yTop : ℤ) : List PathCmd :=
  [PathCmd.move (runStart : ℚ) (yBot : ℚ),
   PathCmd.line ((runEnd : ℚ) + 1) (yBot : ℚ),
   PathCmd.line ((runEnd : ℚ) + 1) (yTop : ℚ),
   PathCmd.line (runStart : ℚ) (yTop : ℚ),
   PathCmd.close]

/-- All runs found by the scan, as `(runStart, runEnd, row)` triples in
emission order. -/
def traceRuns (img : ImageData) : List (ℕ × ℕ × ℕ) :=
  (List.range img.height).flatMap (fun y =>
    (runsFrom (rowBools img y) 0).map (fun se => (se.1, se.2, y)))

/-- The Outline Tracer `imageDataToOpentypePath` of `imageService.ts`
(the returned `dataUrl` PNG preview is outside the model).  For each run at
row `y` it emits the closed rectangle with
`path_y_bottom = charPixelHeight - 1 - y` and `path_y_top = charPixelHeight - y`. -/
def imageDataToOpentypePath (img : ImageData) (charPixelHeight : ℤ) : List PathCmd :=
  (traceRuns img).flatMap (fun t =>
    rectCmds t.1 t.2.1 (charPixelHeight - 1 - (t.2.2 : ℤ)) (charPixelHeight - (t.2.2 : ℤ)))

/-- Specification-side predicate: `[s, e]` is a maximal horizontal run of
opaque pixels in the row `bs` (all pixels in `[s, e]` opaque, and the run
extends neither left nor right). -/
def isMaxRunB (bs : List Bool) (s e : ℕ) : Bool :=
  decide (s ≤ e) && decide (e < bs.length) &&
  (List.range (e + 1 - s)).all (fun k => bs.getD (s + k) false) &&
  (decide (s = 0) || !(bs.getD (s - 1) false)) &&
  (decide (e + 1 = bs.length) || !(bs.getD (e + 1) false))

/-- Specification-side enumeration of the maximal runs of a row, ascending. -/
def maximalRuns (bs : List Bool) : List (ℕ × ℕ) :=
  (List.range bs.length).flatMap (fun s =>
    (List.range bs.length).filterMap (fun e => if isMaxRunB bs s e then some (s, e) else none))

/-! ## Re-rasterization of an outline (for the round-trip property)

An outline is split into its closed contours; each contour the tracer produces
is an axis-aligned rectangle, and a pixel is covered by it when the pixel's
unit cell lies inside the rectangle spanned by the contour's points. -/

/-- Split a command list into its contours (a contour extends up to and
including a `closePath`; a trailing unclosed contour is kept as is). -/
def contoursAux : List PathCmd → List PathCmd → List (List PathCmd)
  | acc, [] => if acc.isEmpty then [] else [acc.reverse]
  | acc, PathCmd.close :: cs => (acc.reverse ++ [PathCmd.close]) :: contoursAux [] cs
  | acc, c :: cs => contoursAux (c :: acc) cs

/-- The contours of an outline. -/
def contours (cmds : List PathCmd) : List (List PathCmd) := contoursAux [] cmds

/-- The on-curve point of a command, if any. -/
def cmdPoint : PathCmd → Option (ℚ × ℚ)
  | PathCmd.move x y => some (x, y)
  | PathCmd.line x y => some (x, y)
  | PathCmd.curve _ _ _ _ x y => some (x, y)
  | PathCmd.quad _ _ x y => some (x, y)
  | PathCmd.close => none

/-- Whether the unit cell of pixel `(px, py)` (its image row `py` counted from
the top of a box of height `H`) lies inside the axis-aligned rectangle spanned
by the given points.  The cell occupies `[px, px + 1] × [H - 1 - py, H - py]`
in font units at 1 font unit = 1 pixel. -/
def cellCoveredByRect (pts : List (ℚ × ℚ)) (H : ℤ) (px py : ℕ) : Bool :=
  match pts with
  | [] => false
  | p :: ps =>
    let xlo := ps.foldl (fun m q => min m q.1) p.1
    let xhi := ps.foldl (fun m q => max m q.1) p.1
    let ylo := ps.foldl (fun m q => min m q.2) p.2
    let yhi := ps.foldl (fun m q => max m q.2) p.2
    decide (xlo ≤ (px : ℚ) ∧ (px : ℚ) + 1 ≤ xhi ∧ ylo ≤ (H : ℚ) - 1 - (py : ℚ) ∧ (H : ℚ) - (py : ℚ) ≤ yhi)

/-- Re-rasterization of an outline at 1 font unit = 1 pixel: pixel `(px, py)`
is covered when some rectangle contour of the outline covers its unit cell. -/
def rasterCovered (cmds : List PathCmd) (H : ℤ) (px py : ℕ) : Bool :=
  (contours cmds).any (fun c => cellCoveredByRect (c.filterMap cmdPoint) H px py)

/-! ## Stage 2 of the batch pipeline (`handleFetchAndProcessCharacters`) -/

/-- The per-glyph status of `GlyphData` in `types.ts`. -/
inductive GlyphStatus where
  | pending
  | fetching
  | processing
  | converting
  | done
  | error
deriving DecidableEq

/-- The `GlyphData` record of `types.ts` (the fields stage 2 populates; the
optional preview URLs and the error message are outside the model). -/
structure GlyphData where
  id : String
  char : Char
  status : GlyphStatus
  opentypePath : List PathCmd
  width : ℕ
  visualWidth : ℕ
  visualHeight : ℕ
  xOffset : ℚ
  yOffset : ℚ
  scale : ℚ
deriving DecidableEq

/-- One entry of `intermediateResults` produced by stage 1. -/
structure IntermediateResult where
  id : String
  char : Char
  processedData : ProcessedCharacter
deriving DecidableEq

/-- The stage-2 body for one character: `yOffset = baselineY - maxY`, the
tracer is run on the cropped bitmap with `charPixelHeight = height`, the space
character's advance width is `Math.floor(UNITS_PER_EM / 3)`, and the stored
`yOffset` is forced to `0` for the empty sentinel (`maxY = -1`). -/
def stage2Glyph (baselineY : ℚ) (r : IntermediateResult) : GlyphData :=
  let yOffset : ℚ := baselineY - (r.processedData.maxY : ℚ)
  let path := imageDataToOpentypePath r.processedData.imageData (r.processedData.height : ℤ)
  let finalAdvanceWidth := if r.char = ' ' then UNITS_PER_EM / 3 else r.processedData.width
  { id := r.id, char := r.char, status := GlyphStatus.done, opentypePath := path,
    width := finalAdvanceWidth, visualWidth := r.processedData.width,
    visualHeight := r.processedData.height, xOffset := 0,
    yOffset := if r.processedData.maxY = -1 then 0 else yOffset, scale := 1 }

/-- Stage 2 over the whole batch of intermediate results. -/
def stage2 (baselineY : ℚ) (rs : List IntermediateResult) : List GlyphData :=
  rs.map (stage2Glyph baselineY)

/-! ## Glyph Transform Engine and Font Assembler (`imageService.ts`) -/

/-- Scale one command's coordinates about `(originX, originY)`:
`coord := origin + (coord - origin) * scaleFactor` for every coordinate field. -/
def scaleCmd (scaleFactor originX originY : ℚ) : PathCmd → PathCmd
  | PathCmd.move x y =>
      PathCmd.move (originX + (x - originX) * scaleFactor) (originY + (y - originY) * scaleFactor)
  | PathCmd.line x y =>
      PathCmd.line (originX + (x - originX) * scaleFactor) (originY + (y - originY) * scaleFactor)
  | PathCmd.curve x1 y1 x2 y2 x y =>
      PathCmd.curve (originX + (x1 - originX) * scaleFactor) (originY + (y1 - originY) * scaleFactor)
        (originX + (x2 - originX) * scaleFactor) (originY + (y2 - originY) * scaleFactor)
        (originX + (x - originX) * scaleFactor) (originY + (y - originY) * scaleFactor)
  | PathCmd.quad x1 y1 x y =>
      PathCmd.quad (originX + (x1 - originX) * scaleFactor) (originY + (y1 - originY) * scaleFactor)
        (originX + (x - originX) * scaleFactor) (originY + (y - originY) * scaleFactor)
  | PathCmd.close => PathCmd.close

/-- `scalePath` of `imageService.ts`: no-op when `scaleFactor === 1`,
otherwise every coordinate of every command is scaled about the origin. -/
def scalePath (path : List PathCmd) (scaleFactor : ℚ) (originX : ℚ := 0) (originY : ℚ := 0) :
    List PathCmd :=
  if scaleFactor = 1 then path else path.map (scaleCmd scaleFactor originX originY)

/-- Translate one command's coordinates by `(dx, dy)`. -/
def translateCmd (dx dy : ℚ) : PathCmd → PathCmd
  | PathCmd.move x y => PathCmd.move (x + dx) (y + dy)
  | PathCmd.line x y => PathCmd.line (x + dx) (y + dy)
  | PathCmd.curve x1 y1 x2 y2 x y =>
      PathCmd.curve (x1 + dx) (y1 + dy) (x2 + dx) (y2 + dy) (x + dx) (y + dy)
  | PathCmd.quad x1 y1 x y => PathCmd.quad (x1 + dx) (y1 + dy) (x + dx) (y + dy)
  | PathCmd.close => PathCmd.close

/-- `translatePath` of `imageService.ts`: no-op when both offsets are 0,
otherwise every coordinate is shifted. -/
def translatePath (path : List PathCmd) (dx dy : ℚ) : List PathCmd :=
  if dx = 0 ∧ dy = 0 then path else path.map (translateCmd dx dy)

/-- The per-glyph input of `assembleTtfFont` (`FontAssemblyGlyphData`). -/
structure FontAssemblyGlyphData where
  char : Char
  path : List PathCmd
  width : ℕ
  height : ℕ
  xOffset : ℚ
  yOffset : ℚ
  scale : ℚ
deriving DecidableEq

/-- One entry of the glyph table handed to `opentype.Font`. -/
structure OTGlyph where
  name : String
  unicode : ℕ
  advanceWidth : ℤ
  path : List PathCmd
deriving DecidableEq

/-- The mandatory `.notdef` glyph of `assembleTtfFont`: a fixed rectangular
placeholder with advance width `Math.round(unitsPerEm / 2)`. -/
def notdefGlyph (unitsPerEm : ℕ) : OTGlyph :=
  let ascent : ℤ := round ((unitsPerEm : ℚ) * (85 / 100))
  let notdefAdvanceWidth : ℤ := round ((unitsPerEm : ℚ) / 2)
  let notdefBoxWidth : ℚ := (notdefAdvanceWidth : ℚ) / 2
  let notdefBoxHeight : ℤ := round ((ascent : ℚ) * (7 / 10))
  { name := ".notdef", unicode := 0, advanceWidth := notdefAdvanceWidth,
    path := [PathCmd.move 0 0, PathCmd.line notdefBoxWidth 0,
             PathCmd.line notdefBoxWidth (notdefBoxHeight : ℚ),
             PathCmd.line 0 (notdefBoxHeight : ℚ), PathCmd.close] }

/-- The space glyph's advance width: the scaled width of an explicit space
entry when one exists, else the default `Math.floor(unitsPerEm / 3)`. -/
def spaceAdvanceWidth (glyphsData : List FontAssemblyGlyphData) (unitsPerEm : ℕ) : ℤ :=
  match glyphsData.find? (fun g => g.char == ' ') with
  | some g => max 1 (round ((g.width : ℚ) * g.scale))
  | none => ((unitsPerEm / 3 : ℕ) : ℤ)

/-- The space glyph of `assembleTtfFont` (empty path). -/
def spaceGlyph (glyphsData : List FontAssemblyGlyphData) (unitsPerEm : ℕ) : OTGlyph :=
  { name := "space", unicode := 32, advanceWidth := spaceAdvanceWidth glyphsData unitsPerEm,
    path := [] }

/-- The per-glyph advance width of `assembleTtfFont`:
`Math.max(1, Math.round((glyph.width || Math.round(unitsPerEm / 2)) * glyph.scale))`.
JS `||` takes the fallback when `glyph.width` is `0` (falsy), not only when it
is undefined. -/
def glyphAdvanceWidth (width : ℕ) (scale : ℚ) (unitsPerEm : ℕ) : ℤ :=
  max 1 (round (((if width = 0 then round ((unitsPerEm : ℚ) / 2) else (width : ℤ)) : ℚ) * scale))

/-- One iteration of the glyph loop of `assembleTtfFont`: the space character
is skipped (already handled), every other character gets its cloned path
scaled about `(0, 0)` and then translated, plus its scaled advance width.
The source's branch on an empty path applies the same transforms to an empty
path, which is the same value, so both branches collapse here; `charCodeAt(0)`
of a one-character string is its code point and is never `NaN`, so the
invalid-code-point skip is unreachable in the model. -/
def assembleGlyph (unitsPerEm : ℕ) (g : FontAssemblyGlyphData) : Option OTGlyph :=
  if g.char = ' ' then none
  else
    some { name := String.mk [g.char], unicode := g.char.toNat,
           advanceWidth := glyphAdvanceWidth g.width g.scale unitsPerEm,
           path := translatePath (scalePath g.path g.scale) g.xOffset g.yOffset }

/-- The glyph table built by `assembleTtfFont`: `.notdef`, then `space`, then
one glyph per non-space input in order.  The binary serialisation
(`font.toArrayBuffer()`) is outside the model. -/
def assembleTtfFont (glyphsData : List FontAssemblyGlyphData) (unitsPerEm : ℕ) : List OTGlyph :=
  notdefGlyph unitsPerEm :: spaceGlyph glyphsData unitsPerEm ::
    glyphsData.filterMap (assembleGlyph unitsPerEm)

/-! ## Helper lemmas -/

lemma cancel_offset {s d : ℚ} (hs : s ≠ 1) (h : d = d * s) : d = 0 := by
  by_contra hd
  exact hs (mul_left_cancel₀ hd (by linarith)).symm

/-! ## C1: baseline fallback on an empty collection -/

/-- C1, code evidence: when the collected `maxY` list is empty the computed
baseline is `0`, not the fixed default `RENDER_SIZE * 0.8 = 204.8` the claim
states; the `isNaN` fallback in the source never executes because `baselineY`
is initialised to `0` and `isNaN(0)` is false. -/
theorem baseline_empty_is_zero_not_fallback :
    computeBaselineY [] = 0 ∧ computeBaselineY [] ≠ (RENDER_SIZE : ℚ) * (8 / 10) := by
  constructor
  · simp [computeBaselineY]
  · simp [computeBaselineY, RENDER_SIZE]

/-! ## C2: stage-2 vertical placement -/

/-- C2: for every intermediate result converted by stage 2, the produced
glyph record's `yOffset` is `baselineY - maxY` when `maxY ≠ -1` and exactly
`0` for the empty sentinel `maxY = -1`. -/
theorem stage2_yOffset (baselineY : ℚ) (rs : List IntermediateResult) :
    (stage2 baselineY rs).map GlyphData.yOffset =
      rs.map (fun r =>
        if r.processedData.maxY = -1 then 0 else baselineY - (r.processedData.maxY : ℚ)) := by
  simp only [stage2, List.map_map]
  apply List.map_congr_left
  intro r _
  simp [stage2Glyph]

/-! ## C3: advance width written by the assembler -/

/-- C3, counterexample: a glyph with `baseAdvanceWidth = 0` (nonnegative) and
`scale = 1 > 0` is written with advance width `round(unitsPerEm / 2) = 500`
(the JS `||` fallback fires on the falsy `0`), not
`max(1, round(0 * 1)) = 1` as the claim states. -/
theorem assembler_advance_width_zero_counterexample :
    ((assembleTtfFont [⟨'A', [], 0, 0, 0, 0, 1⟩] 1000).getD 2 ⟨"", 0, 0, []⟩).advanceWidth = 500 ∧
    (500 : ℤ) ≠ max 1 (round ((0 : ℚ) * 1)) ∧ (0 : ℚ) < 1 := by
  refine ⟨?_, by norm_num, by norm_num⟩
  simp [assembleTtfFont, assembleGlyph, glyphAdvanceWidth, List.getD]
  norm_num [round_eq]

/-- C3, amended: for every glyph with positive `baseAdvanceWidth` and
`scale > 0` the assembler writes advance width
`max(1, round(baseAdvanceWidth * scale))`, which is always at least 1
(for `baseAdvanceWidth = 0` the source substitutes `round(unitsPerEm / 2)`
before scaling). -/
theorem assembler_advance_width_positive (l : List FontAssemblyGlyphData) (upem : ℕ)
    (g : FontAssemblyGlyphData) (hg : g ∈ l) (hchar : g.char ≠ ' ')
    (hw : 0 < g.width) (_hs : (0 : ℚ) < g.scale) :
    ∃ og ∈ assembleTtfFont l upem,
      og.name = String.mk [g.char] ∧
      og.advanceWidth = max 1 (round ((g.width : ℚ) * g.scale)) ∧ 1 ≤ og.advanceWidth := by
  refine ⟨{ name := String.mk [g.char], unicode := g.char.toNat,
            advanceWidth := glyphAdvanceWidth g.width g.scale upem,
            path := translatePath (scalePath g.path g.scale) g.xOffset g.yOffset }, ?_, rfl, ?_, ?_⟩
  · apply List.mem_cons_of_mem
    apply List.mem_cons_of_mem
    rw [List.mem_filterMap]
    exact ⟨g, hg, by rw [assembleGlyph, if_neg hchar]⟩
  · have hw0 : g.width ≠ 0 := Nat.pos_iff_ne_zero.mp hw
    simp [glyphAdvanceWidth, hw0]
  · exact le_max_left _ _

/-- Witness for the amended C3 theorem at a concrete glyph. -/
theorem assembler_advance_width_positive_witness :
    (⟨'A', [], 3, 0, 0, 0, 1⟩ : FontAssemblyGlyphData) ∈ [(⟨'A', [], 3, 0, 0, 0, 1⟩ : FontAssemblyGlyphData)] ∧
    ('A' ≠ ' ') ∧ 0 < (3 : ℕ) ∧ (0 : ℚ) < 1 ∧
    ∃ og ∈ assembleTtfFont [⟨'A', [], 3, 0, 0, 0, 1⟩] 256,
      og.name = String.mk ['A'] ∧
      og.advanceWidth = max 1 (round (((3 : ℕ) : ℚ) * 1)) ∧ 1 ≤ og.advanceWidth :=
  ⟨List.mem_singleton_self _, by decide, by decide, by norm_num,
   assembler_advance_width_positive [⟨'A', [], 3, 0, 0, 0, 1⟩] 256 ⟨'A', [], 3, 0, 0, 0, 1⟩
     (List.mem_singleton_self _) (by decide) (by decide) (by norm_num)⟩

/-! ## C8: transform order -/

/-- C8, counterexample: on the empty outline, scale-then-translate and
translate-then-scale coincide even for `scale = 2 ≠ 1` and the nonzero
offset `(1, 1)`, so the claim fails as stated for every glyph outline. -/
theorem transform_order_empty_counterexample :
    translatePath (scalePath [] 2) 1 1 = scalePath (translatePath [] 1 1) 2 ∧
    (2 : ℚ) ≠ 1 ∧ ¬((1 : ℚ) = 0 ∧ (1 : ℚ) = 0) := by
  refine ⟨?_, by norm_num, by norm_num⟩
  simp [translatePath, scalePath]

/-- C8, amended: for every outline containing at least one coordinate-bearing
command, every `scale ≠ 1` and every offset other than `(0, 0)`, applying the
engine's order (scale about the local origin, then translate) gives a
different outline than translating first and scaling afterwards. -/
theorem transform_scale_then_translate_differs (cmds : List PathCmd) (s dx dy : ℚ)
    (hs : s ≠ 1) (hoff : ¬(dx = 0 ∧ dy = 0)) (hc : ∃ c ∈ cmds, c ≠ PathCmd.close) :
    translatePath (scalePath cmds s) dx dy ≠ scalePath (translatePath cmds dx dy) s := by
  obtain ⟨c, hcmem, hcne⟩ := hc
  intro heq
  rw [scalePath, translatePath, if_neg hs, if_neg hoff, scalePath, translatePath,
    if_neg hs, if_neg hoff, List.map_map, List.map_map, List.map_eq_map_iff] at heq
  have h := heq c hcmem
  apply hoff
  cases c with
  | close => exact absurd rfl hcne
  | move x y =>
    simp only [Function.comp, scaleCmd, translateCmd, PathCmd.move.injEq] at h
    exact ⟨cancel_offset hs (by linarith [h.1]), cancel_offset hs (by linarith [h.2])⟩
  | line x y =>
    simp only [Function.comp, scaleCmd, translateCmd, PathCmd.line.injEq] at h
    exact ⟨cancel_offset hs (by linarith [h.1]), cancel_offset hs (by linarith [h.2])⟩
  | curve x1 y1 x2 y2 x y =>
    simp only [Function.comp, scaleCmd, translateCmd, PathCmd.curve.injEq] at h
    exact ⟨cancel_offset hs (by linarith [h.1]), cancel_offset hs (by linarith [h.2.1])⟩
  | quad x1 y1 x y =>
    simp only [Function.comp, scaleCmd, translateCmd, PathCmd.quad.injEq] at h
    exact ⟨cancel_offset hs (by linarith [h.1]), cancel_offset hs (by linarith [h.2.1])⟩

/-- Witness for the amended C8 theorem at a concrete outline. -/
theorem transform_scale_then_translate_differs_witness :
    ((2 : ℚ) ≠ 1) ∧ ¬((1 : ℚ) = 0 ∧ (1 : ℚ) = 0) ∧
    (∃ c ∈ [PathCmd.move 0 0], c ≠ PathCmd.close) ∧
    translatePath (scalePath [PathCmd.move 0 0] 2) 1 1 ≠
      scalePath (translatePath [PathCmd.move 0 0] 1 1) 2 :=
  ⟨by norm_num, by norm_num,
   ⟨PathCmd.move 0 0, List.mem_singleton_self _, fun h => PathCmd.noConfusion h⟩,
   transform_scale_then_translate_differs [PathCmd.move 0 0] 2 1 1 (by norm_num) (by norm_num)
     ⟨PathCmd.move 0 0, List.mem_singleton_self _, fun h => PathCmd.noConfusion h⟩⟩

/-! ## Foreground Extractor lemmas -/

lemma foldl_bboxStep_bg (img : ImageData) (l : List (ℕ × ℕ)) (acc : BBox)
    (h : ∀ p ∈ l, isBgAt img p.1 p.2 = true) : l.foldl (bboxStep img) acc = acc := by
  induction l generalizing acc with
  | nil => rfl
  | cons p t ih =>
    rw [List.foldl_cons]
    have hstep : bboxStep img acc p = acc := by
      simp only [bboxStep, h p (List.mem_cons_self p t), if_true]
    rw [hstep]
    exact ih acc (fun q hq => h q (List.mem_cons_of_mem p hq))

/-- C6: a bitmap whose every pixel is within background tolerance yields the
empty sentinel: `maxY = -1`, a 1×1 crop, and a fully transparent 1×1 bitmap,
with no failure. -/
theorem extractor_all_background (img : ImageData)
    (h : ∀ p ∈ scanCoords img.width img.height, isBgAt img p.1 p.2 = true) :
    processImage img =
      { char := " ", imageData := emptyProcessedImageData, width := 1, height := 1, maxY := -1 } := by
  have hb : scanBBox img = ⟨(img.width : ℤ), (img.height : ℤ), -1, -1⟩ :=
    foldl_bboxStep_bg img _ _ h
  simp [processImage, hb]

/-- Witness for the C6 theorem at a concrete all-white bitmap. -/
theorem extractor_all_background_witness :
    (∀ p ∈ scanCoords (ImageData.mk 1 1 [255, 255, 255, 255]).width
        (ImageData.mk 1 1 [255, 255, 255, 255]).height,
      isBgAt (ImageData.mk 1 1 [255, 255, 255, 255]) p.1 p.2 = true) ∧
    processImage (ImageData.mk 1 1 [255, 255, 255, 255]) =
      { char := " ", imageData := emptyProcessedImageData, width := 1, height := 1, maxY := -1 } :=
  ⟨by decide, extractor_all_background (ImageData.mk 1 1 [255, 255, 255, 255]) (by decide)⟩

lemma bboxStep_fg (img : ImageData) (acc : BBox) (p : ℕ × ℕ) (h : isBgAt img p.1 p.2 = false) :
    bboxStep img acc p =
      ⟨min (p.1 : ℤ) acc.minX, min (p.2 : ℤ) acc.minY,
       max (p.1 : ℤ) acc.maxX, max (p.2 : ℤ) acc.maxY⟩ := by
  simp only [bboxStep, h, Bool.false_eq_true, if_false, BBox.mk.injEq]
  refine ⟨?_, ?_, ?_, ?_⟩ <;> split_ifs <;> omega

lemma foldl_bbox_filter (img : ImageData) (l : List (ℕ × ℕ)) (acc : BBox) :
    l.foldl (bboxStep img) acc =
      (l.filter (fun p => !(isBgAt img p.1 p.2))).foldl
        (fun acc p => ⟨min (p.1 : ℤ) acc.minX, min (p.2 : ℤ) acc.minY,
                       max (p.1 : ℤ) acc.maxX, max (p.2 : ℤ) acc.maxY⟩) acc := by
  induction l generalizing acc with
  | nil => rfl
  | cons p t ih =>
    rw [List.foldl_cons]
    cases hbg : isBgAt img p.1 p.2 with
    | true =>
      rw [List.filter_cons_of_neg (by simp [hbg])]
      have hstep : bboxStep img acc p = acc := by simp only [bboxStep, hbg, if_true]
      rw [hstep]
      exact ih acc
    | false =>
      rw [List.filter_cons_of_pos (by simp [hbg]), List.foldl_cons, bboxStep_fg img acc p hbg]
      exact ih _

lemma pure_foldl_minX (l : List (ℕ × ℕ)) (acc : BBox) :
    (l.foldl (fun acc p => (⟨min (p.1 : ℤ) acc.minX, min (p.2 : ℤ) acc.minY,
        max (p.1 : ℤ) acc.maxX, max (p.2 : ℤ) acc.maxY⟩ : BBox)) acc).minX =
      l.foldl (fun m p => min (p.1 : ℤ) m) acc.minX := by
  induction l generalizing acc with
  | nil => rfl
  | cons p t ih => rw [List.foldl_cons, List.foldl_cons]; exact ih _

lemma pure_foldl_minY (l : List (ℕ × ℕ)) (acc : BBox) :
    (l.foldl (fun acc p => (⟨min (p.1 : ℤ) acc.minX, min (p.2 : ℤ) acc.minY,
        max (p.1 : ℤ) acc.maxX, max (p.2 : ℤ) acc.maxY⟩ : BBox)) acc).minY =
      l.foldl (fun m p => min (p.2 : ℤ) m) acc.minY := by
  induction l generalizing acc with
  | nil => rfl
  | cons p t ih => rw [List.foldl_cons, List.foldl_cons]; exact ih _

lemma pure_foldl_maxX (l : List (ℕ × ℕ)) (acc : BBox) :
    (l.foldl (fun acc p => (⟨min (p.1 : ℤ) acc.minX, min (p.2 : ℤ) acc.minY,
        max (p.1 : ℤ) acc.maxX, max (p.2 : ℤ) acc.maxY⟩ : BBox)) acc).maxX =
      l.foldl (fun m p => max (p.1 : ℤ) m) acc.maxX := by
  induction l generalizing acc with
  | nil => rfl
  | cons p t ih => rw [List.foldl_cons, List.foldl_cons]; exact ih _

lemma pure_foldl_maxY (l : List (ℕ × ℕ)) (acc : BBox) :
    (l.foldl (fun acc p => (⟨min (p.1 : ℤ) acc.minX, min (p.2 : ℤ) acc.minY,
        max (p.1 : ℤ) acc.maxX, max (p.2 : ℤ) acc.maxY⟩ : BBox)) acc).maxY =
      l.foldl (fun m p => max (p.2 : ℤ) m) acc.maxY := by
  induction l generalizing acc with
  | nil => rfl
  | cons p t ih => rw [List.foldl_cons, List.foldl_cons]; exact ih _

lemma foldl_min_le_init (f : ℕ × ℕ → ℤ) (l : List (ℕ × ℕ)) (a : ℤ) :
    l.foldl (fun m p => min (f p) m) a ≤ a := by
  induction l generalizing a with
  | nil => exact le_refl a
  | cons p t ih => exact le_trans (ih (min (f p) a)) (min_le_right _ _)

lemma foldl_min_le_mem (f : ℕ × ℕ → ℤ) (l : List (ℕ × ℕ)) (a : ℤ) (p : ℕ × ℕ) (hp : p ∈ l) :
    l.foldl (fun m p => min (f p) m) a ≤ f p := by
  induction l generalizing a with
  | nil => exact absurd hp (List.not_mem_nil p)
  | cons q t ih =>
    rw [List.foldl_cons]
    rcases List.mem_cons.mp hp with h | h
    · subst h
      exact le_trans (foldl_min_le_init f t _) (min_le_left _ _)
    · exact ih _ h

lemma foldl_min_cases (f : ℕ × ℕ → ℤ) (l : List (ℕ × ℕ)) (a : ℤ) :
    l.foldl (fun m p => min (f p) m) a = a ∨
      ∃ p ∈ l, l.foldl (fun m p => min (f p) m) a = f p := by
  induction l generalizing a with
  | nil => exact Or.inl rfl
  | cons q t ih =>
    rw [List.foldl_cons]
    rcases ih (min (f q) a) with h | ⟨p, hp, h⟩
    · rcases le_total (f q) a with hle | hle
      · exact Or.inr ⟨q, List.mem_cons_self q t, by rw [h, min_eq_left hle]⟩
      · exact Or.inl (by rw [h, min_eq_right hle])
    · exact Or.inr ⟨p, List.mem_cons_of_mem q hp, h⟩

lemma foldl_max_ge_init (f : ℕ × ℕ → ℤ) (l : List (ℕ × ℕ)) (a : ℤ) :
    a ≤ l.foldl (fun m p => max (f p) m) a := by
  induction l generalizing a with
  | nil => exact le_refl a
  | cons p t ih => exact le_trans (le_max_right _ _) (ih (max (f p) a))

lemma foldl_max_ge_mem (f : ℕ × ℕ → ℤ) (l : List (ℕ × ℕ)) (a : ℤ) (p : ℕ × ℕ) (hp : p ∈ l) :
    f p ≤ l.foldl (fun m p => max (f p) m) a := by
  induction l generalizing a with
  | nil => exact absurd hp (List.not_mem_nil p)
  | cons q t ih =>
    rw [List.foldl_cons]
    rcases List.mem_cons.mp hp with h | h
    · subst h
      exact le_trans (le_max_left _ _) (foldl_max_ge_init f t _)
    · exact ih _ h

lemma foldl_max_cases (f : ℕ × ℕ → ℤ) (l : List (ℕ × ℕ)) (a : ℤ) :
    l.foldl (fun m p => max (f p) m) a = a ∨
      ∃ p ∈ l, l.foldl (fun m p => max (f p) m) a = f p := by
  induction l generalizing a with
  | nil => exact Or.inl rfl
  | cons q t ih =>
    rw [List.foldl_cons]
    rcases ih (max (f q) a) with h | ⟨p, hp, h⟩
    · rcases le_total (f q) a with hle | hle
      · exact Or.inl (by rw [h, max_eq_right hle])
      · exact Or.inr ⟨q, List.mem_cons_self q t, by rw [h, max_eq_left hle]⟩
    · exact Or.inr ⟨p, List.mem_cons_of_mem q hp, h⟩

lemma mem_scanCoords (w h : ℕ) (p : ℕ × ℕ) : p ∈ scanCoords w h ↔ p.1 < w ∧ p.2 < h := by
  obtain ⟨x, y⟩ := p
  simp only [scanCoords, List.mem_flatMap, List.mem_map, List.mem_range, Prod.mk.injEq]
  constructor
  · rintro ⟨b, hb, a, ha, rfl, rfl⟩
    exact ⟨ha, hb⟩
  · rintro ⟨hx, hy⟩
    exact ⟨y, hy, x, hx, rfl, rfl⟩

/-- C7: on a bitmap with at least one foreground pixel, the scan's bounding
box contains every foreground pixel, each of its four edges is attained by a
foreground pixel (so it is the tightest such box), the returned crop has
`width = maxX - minX + 1` and `height = maxY - minY + 1` (floored at 1), both
at least 1, and the returned `maxY` is the scan's `maxY`. -/
theorem extractor_tight_bbox (img : ImageData) (hne : fgPixels img ≠ []) :
    (∀ p ∈ fgPixels img,
        (scanBBox img).minX ≤ (p.1 : ℤ) ∧ (p.1 : ℤ) ≤ (scanBBox img).maxX ∧
        (scanBBox img).minY ≤ (p.2 : ℤ) ∧ (p.2 : ℤ) ≤ (scanBBox img).maxY) ∧
    (∃ p ∈ fgPixels img, (p.1 : ℤ) = (scanBBox img).minX) ∧
    (∃ p ∈ fgPixels img, (p.1 : ℤ) = (scanBBox img).maxX) ∧
    (∃ p ∈ fgPixels img, (p.2 : ℤ) = (scanBBox img).minY) ∧
    (∃ p ∈ fgPixels img, (p.2 : ℤ) = (scanBBox img).maxY) ∧
    (processImage img).width = (max 1 ((scanBBox img).maxX - (scanBBox img).minX + 1)).toNat ∧
    (processImage img).height = (max 1 ((scanBBox img).maxY - (scanBBox img).minY + 1)).toNat ∧
    1 ≤ (processImage img).width ∧ 1 ≤ (processImage img).height ∧
    (processImage img).maxY = (scanBBox img).maxY := by
  obtain ⟨q, hq⟩ := List.exists_mem_of_ne_nil _ hne
  have hminX : (scanBBox img).minX =
      (fgPixels img).foldl (fun m p => min (p.1 : ℤ) m) (img.width : ℤ) := by
    rw [scanBBox, foldl_bbox_filter]; exact pure_foldl_minX _ _
  have hminY : (scanBBox img).minY =
      (fgPixels img).foldl (fun m p => min (p.2 : ℤ) m) (img.height : ℤ) := by
    rw [scanBBox, foldl_bbox_filter]; exact pure_foldl_minY _ _
  have hmaxX : (scanBBox img).maxX =
      (fgPixels img).foldl (fun m p => max (p.1 : ℤ) m) (-1) := by
    rw [scanBBox, foldl_bbox_filter]; exact pure_foldl_maxX _ _
  have hmaxY : (scanBBox img).maxY =
      (fgPixels img).foldl (fun m p => max (p.2 : ℤ) m) (-1) := by
    rw [scanBBox, foldl_bbox_filter]; exact pure_foldl_maxY _ _
  obtain ⟨hqw, hqh⟩ : q.1 < img.width ∧ q.2 < img.height :=
    (mem_scanCoords _ _ q).mp (List.mem_of_mem_filter hq)
  have hbound : ∀ p ∈ fgPixels img,
      (scanBBox img).minX ≤ (p.1 : ℤ) ∧ (p.1 : ℤ) ≤ (scanBBox img).maxX ∧
      (scanBBox img).minY ≤ (p.2 : ℤ) ∧ (p.2 : ℤ) ≤ (scanBBox img).maxY := by
    intro p hp
    refine ⟨?_, ?_, ?_, ?_⟩
    · rw [hminX]; exact foldl_min_le_mem _ _ _ p hp
    · rw [hmaxX]; exact foldl_max_ge_mem _ _ _ p hp
    · rw [hminY]; exact foldl_min_le_mem _ _ _ p hp
    · rw [hmaxY]; exact foldl_max_ge_mem _ _ _ p hp
  have hattX : ∃ p ∈ fgPixels img, (p.1 : ℤ) = (scanBBox img).minX := by
    rcases foldl_min_cases (fun p => (p.1 : ℤ)) (fgPixels img) (img.width : ℤ) with h | ⟨p, hp, h⟩
    · exfalso
      have h1 := foldl_min_le_mem (fun p => (p.1 : ℤ)) (fgPixels img) (img.width : ℤ) q hq
      rw [h] at h1
      simp only at h1
      omega
    · exact ⟨p, hp, by rw [hminX, h]⟩
  have hattXmax : ∃ p ∈ fgPixels img, (p.1 : ℤ) = (scanBBox img).maxX := by
    rcases foldl_max_cases (fun p => (p.1 : ℤ)) (fgPixels img) (-1) with h | ⟨p, hp, h⟩
    · exfalso
      have h1 := foldl_max_ge_mem (fun p => (p.1 : ℤ)) (fgPixels img) (-1) q hq
      rw [h] at h1
      simp only at h1
      omega
    · exact ⟨p, hp, by rw [hmaxX, h]⟩
  have hattY : ∃ p ∈ fgPixels img, (p.2 : ℤ) = (scanBBox img).minY := by
    rcases foldl_min_cases (fun p => (p.2 : ℤ)) (fgPixels img) (img.height : ℤ) with h | ⟨p, hp, h⟩
    · exfalso
      have h1 := foldl_min_le_mem (fun p => (p.2 : ℤ)) (fgPixels img) (img.height : ℤ) q hq
      rw [h] at h1
      simp only at h1
      omega
    · exact ⟨p, hp, by rw [hminY, h]⟩
  have hattYmax : ∃ p ∈ fgPixels img, (p.2 : ℤ) = (scanBBox img).maxY := by
    rcases foldl_max_cases (fun p => (p.2 : ℤ)) (fgPixels img) (-1) with h | ⟨p, hp, h⟩
    · exfalso
      have h1 := foldl_max_ge_mem (fun p => (p.2 : ℤ)) (fgPixels img) (-1) q hq
      rw [h] at h1
      simp only at h1
      omega
    · exact ⟨p, hp, by rw [hmaxY, h]⟩
  have hnneg : ¬((scanBBox img).maxX = -1 ∨ (scanBBox img).maxY = -1) := by
    obtain ⟨p1, hp1, he1⟩ := hattXmax
    obtain ⟨p2, hp2, he2⟩ := hattYmax
    rintro (h | h) <;> omega
  have hproc : processImage img =
      { char := "",
        imageData := ⟨(max 1 ((scanBBox img).maxX - (scanBBox img).minX + 1)).toNat,
          (max 1 ((scanBBox img).maxY - (scanBBox img).minY + 1)).toNat,
          subImageData img.width (stripBgData img) (scanBBox img).minX.toNat
            (scanBBox img).minY.toNat
            (max 1 ((scanBBox img).maxX - (scanBBox img).minX + 1)).toNat
            (max 1 ((scanBBox img).maxY - (scanBBox img).minY + 1)).toNat⟩,
        width := (max 1 ((scanBBox img).maxX - (scanBBox img).minX + 1)).toNat,
        height := (max 1 ((scanBBox img).maxY - (scanBBox img).minY + 1)).toNat,
        maxY := (scanBBox img).maxY } := by
    simp only [processImage, if_neg hnneg]
  refine ⟨hbound, hattX, hattXmax, hattY, hattYmax, ?_, ?_, ?_, ?_, ?_⟩ <;> rw [hproc]
  · show 1 ≤ (max 1 ((scanBBox img).maxX - (scanBBox img).minX + 1)).toNat
    have h1 : (1 : ℤ) ≤ max 1 ((scanBBox img).maxX - (scanBBox img).minX + 1) := le_max_left _ _
    omega
  · show 1 ≤ (max 1 ((scanBBox img).maxY - (scanBBox img).minY + 1)).toNat
    have h1 : (1 : ℤ) ≤ max 1 ((scanBBox img).maxY - (scanBBox img).minY + 1) := le_max_left _ _
    omega

/-- Witness for the C7 theorem at a concrete bitmap with one black pixel. -/
theorem extractor_tight_bbox_witness :
    fgPixels (ImageData.mk 2 2 [0, 0, 0, 255, 255, 255, 255, 255,
      255, 255, 255, 255, 255, 255, 255, 255]) ≠ [] ∧
    (processImage (ImageData.mk 2 2 [0, 0, 0, 255, 255, 255, 255, 255,
      255, 255, 255, 255, 255, 255, 255, 255])).width = 1 :=
  ⟨by decide,
   by
    have h := extractor_tight_bbox (ImageData.mk 2 2 [0, 0, 0, 255, 255, 255, 255, 255,
      255, 255, 255, 255, 255, 255, 255, 255]) (by decide)
    rw [h.2.2.2.2.2.1]
    decide⟩

/-! ## Baseline Calibrator lemmas -/

lemma le_foldr_max (l : List ℕ) (v : ℕ) (h : v ∈ l) : v ≤ l.foldr max 0 := by
  induction l with
  | nil => exact absurd h (List.not_mem_nil v)
  | cons a t ih =>
    rw [List.foldr_cons]
    rcases List.mem_cons.mp h with rfl | h
    · exact le_max_left _ _
    · exact le_trans (ih h) (le_max_right _ _)

lemma mem_jsObjectKeys (l : List ℕ) (v : ℕ) : v ∈ jsObjectKeys l ↔ v ∈ l := by
  constructor
  · intro h
    have h2 := (List.mem_filter.mp h).2
    simpa using h2
  · intro h
    refine List.mem_filter.mpr ⟨List.mem_range.mpr ?_, by simpa using h⟩
    exact Nat.lt_succ_of_le (le_foldr_max l v h)

lemma jsObjectKeys_sorted (l : List ℕ) : List.Pairwise (· < ·) (jsObjectKeys l) :=
  (List.pairwise_lt_range _).filter _

lemma foldr_max_le (l : List ℕ) (m : ℕ) (h : ∀ v ∈ l, v ≤ m) : l.foldr max 0 ≤ m := by
  induction l with
  | nil => exact Nat.zero_le m
  | cons a t ih =>
    rw [List.foldr_cons]
    exact max_le (h a (List.mem_cons_self a t)) (ih (fun v hv => h v (List.mem_cons_of_mem a hv)))

lemma foldr_max_perm (l l2 : List ℕ) (hp : l.Perm l2) : l.foldr max 0 = l2.foldr max 0 :=
  le_antisymm (foldr_max_le _ _ (fun v hv => le_foldr_max l2 v (hp.mem_iff.mp hv)))
    (foldr_max_le _ _ (fun v hv => le_foldr_max l v (hp.mem_iff.mpr hv)))

lemma jsObjectKeys_perm (l l2 : List ℕ) (hp : l.Perm l2) : jsObjectKeys l = jsObjectKeys l2 := by
  rw [jsObjectKeys, jsObjectKeys, foldr_max_perm l l2 hp]
  refine List.filter_congr (fun k _ => ?_)
  by_cases hk : k ∈ l
  · have hk2 := hp.mem_iff.mp hk
    simp [hk, hk2]
  · have hk2 : k ∉ l2 := fun h => hk (hp.mem_iff.mpr h)
    simp [hk, hk2]

lemma pickFold_mem (cnt : ℕ → ℕ) :
    ∀ (ks : List ℕ) (a : ℕ),
      ks.foldl (fun x y => if cnt x > cnt y then x else y) a ∈ a :: ks := by
  intro ks
  induction ks with
  | nil => intro a; exact List.mem_cons_self a []
  | cons b t ih =>
    intro a
    rw [List.foldl_cons]
    rcases List.mem_cons.mp (ih (if cnt a > cnt b then a else b)) with h | h
    · rw [h]
      split_ifs
      · exact List.mem_cons_self a _
      · exact List.mem_cons_of_mem a (List.mem_cons_self b t)
    · exact List.mem_cons_of_mem a (List.mem_cons_of_mem b h)

lemma pickFold_count_ge (cnt : ℕ → ℕ) :
    ∀ (ks : List ℕ) (a c : ℕ), c ∈ a :: ks →
      cnt c ≤ cnt (ks.foldl (fun x y => if cnt x > cnt y then x else y) a) := by
  intro ks
  induction ks with
  | nil =>
    intro a c hc
    rcases List.mem_cons.mp hc with rfl | h
    · exact le_refl _
    · exact absurd h (List.not_mem_nil c)
  | cons b t ih =>
    intro a c hc
    rw [List.foldl_cons]
    have hle : cnt a ≤ cnt (if cnt a > cnt b then a else b) ∧
        cnt b ≤ cnt (if cnt a > cnt b then a else b) := by
      split_ifs with h
      · exact ⟨le_refl _, le_of_lt h⟩
      · exact ⟨Nat.le_of_not_lt h, le_refl _⟩
    have hstep : cnt (if cnt a > cnt b then a else b) ≤
        cnt (t.foldl (fun x y => if cnt x > cnt y then x else y)
          (if cnt a > cnt b then a else b)) :=
      ih _ _ (List.mem_cons_self _ _)
    rcases List.mem_cons.mp hc with rfl | hc2
    · exact le_trans hle.1 hstep
    rcases List.mem_cons.mp hc2 with rfl | hc3
    · exact le_trans hle.2 hstep
    · exact ih _ c (List.mem_cons_of_mem _ hc3)

lemma pickFold_largest (cnt : ℕ → ℕ) :
    ∀ (ks : List ℕ) (a : ℕ), List.Pairwise (· < ·) (a :: ks) →
      ∀ c ∈ a :: ks,
        cnt (ks.foldl (fun x y => if cnt x > cnt y then x else y) a) ≤ cnt c →
        c ≤ ks.foldl (fun x y => if cnt x > cnt y then x else y) a := by
  intro ks
  induction ks with
  | nil =>
    intro a _ c hc _
    rcases List.mem_cons.mp hc with rfl | h
    · exact le_refl _
    · exact absurd h (List.not_mem_nil c)
  | cons b t ih =>
    intro a hsort c hc hcnt
    rw [List.foldl_cons] at hcnt ⊢
    have hab : a < b := (List.pairwise_cons.mp hsort).1 b (List.mem_cons_self b t)
    have h1 := List.pairwise_cons.mp hsort
    have h2 := List.pairwise_cons.mp h1.2
    have hsort2 : List.Pairwise (· < ·) ((if cnt a > cnt b then a else b) :: t) := by
      refine List.pairwise_cons.mpr ⟨?_, h2.2⟩
      intro x hx
      split_ifs
      · exact lt_trans hab (h2.1 x hx)
      · exact h2.1 x hx
    have hstep : cnt (if cnt a > cnt b then a else b) ≤
        cnt (t.foldl (fun x y => if cnt x > cnt y then x else y)
          (if cnt a > cnt b then a else b)) :=
      pickFold_count_ge cnt t _ _ (List.mem_cons_self _ _)
    rcases List.mem_cons.mp hc with hca | hc2
    · subst hca
      by_cases hgt : cnt c > cnt b
      · rw [if_pos hgt] at hcnt hsort2 ⊢
        exact ih c hsort2 c (List.mem_cons_self _ _) hcnt
      · rw [if_neg hgt] at hcnt hsort2 ⊢
        have h3 := ih b hsort2 b (List.mem_cons_self _ _)
          (le_trans hcnt (Nat.le_of_not_lt hgt))
        exact le_of_lt (lt_of_lt_of_le hab h3)
    · rcases List.mem_cons.mp hc2 with hcb | hc3
      · subst hcb
        by_cases hgt : cnt a > cnt c
        · rw [if_pos hgt] at hcnt hstep ⊢
          omega
        · rw [if_neg hgt] at hcnt hsort2 ⊢
          exact ih c hsort2 c (List.mem_cons_self _ _) hcnt
      · by_cases hgt : cnt a > cnt b
        · rw [if_pos hgt] at hcnt hsort2 ⊢
          exact ih a hsort2 c (List.mem_cons_of_mem _ hc3) hcnt
        · rw [if_neg hgt] at hcnt hsort2 ⊢
          exact ih b hsort2 c (List.mem_cons_of_mem _ hc3) hcnt

/-- C9: for every non-empty collected `maxY` list, the calibrator's pick is a
value of the list of maximal frequency (the statistical mode), and permuting
the collected list does not change the pick. -/
theorem baseline_mode_perm_invariant (l l2 : List ℕ) (hne : l ≠ []) (hperm : l.Perm l2) :
    pickModeKey l ∈ l ∧ (∀ v, l.count v ≤ l.count (pickModeKey l)) ∧
    pickModeKey l = pickModeKey l2 := by
  obtain ⟨w, hw⟩ := List.exists_mem_of_ne_nil l hne
  have hkeys : w ∈ jsObjectKeys l := (mem_jsObjectKeys l w).mpr hw
  obtain ⟨k, ks, hks⟩ : ∃ k ks, jsObjectKeys l = k :: ks := by
    cases h : jsObjectKeys l with
    | nil => rw [h] at hkeys; exact absurd hkeys (List.not_mem_nil w)
    | cons k ks => exact ⟨k, ks, rfl⟩
  have hpick : pickModeKey l =
      ks.foldl (fun a b => if l.count a > l.count b then a else b) k := by
    rw [pickModeKey, hks]
  refine ⟨?_, ?_, ?_⟩
  · rw [hpick]
    have h1 := pickFold_mem (fun v => l.count v) ks k
    have h2 : ks.foldl (fun a b => if l.count a > l.count b then a else b) k ∈
        jsObjectKeys l := by
      rw [hks]; exact h1
    exact (mem_jsObjectKeys l _).mp h2
  · intro v
    by_cases hv : v ∈ l
    · have hvk : v ∈ k :: ks := by rw [← hks]; exact (mem_jsObjectKeys l v).mpr hv
      rw [hpick]
      exact pickFold_count_ge (fun v => l.count v) ks k v hvk
    · rw [List.count_eq_zero_of_not_mem hv]
      exact Nat.zero_le _
  · have hkeq : jsObjectKeys l = jsObjectKeys l2 := jsObjectKeys_perm l l2 hperm
    have hcnt : ∀ v, l.count v = l2.count v := fun v => hperm.count_eq v
    have hpick2 : pickModeKey l2 =
        ks.foldl (fun a b => if l2.count a > l2.count b then a else b) k := by
      rw [pickModeKey, ← hkeq, hks]
    rw [hpick, hpick2]
    clear hpick hpick2 hks hkeys
    induction ks generalizing k with
    | nil => rfl
    | cons b t ih =>
      rw [List.foldl_cons, List.foldl_cons, hcnt k, hcnt b]
      exact ih _

/-- Witness for the C9 theorem at a concrete list and permutation. -/
theorem baseline_mode_perm_invariant_witness :
    ([3, 3, 5] : List ℕ) ≠ [] ∧ ([3, 3, 5] : List ℕ).Perm [5, 3, 3] ∧
    (pickModeKey [3, 3, 5] ∈ ([3, 3, 5] : List ℕ) ∧
     (∀ v, ([3, 3, 5] : List ℕ).count v ≤ ([3, 3, 5] : List ℕ).count (pickModeKey [3, 3, 5])) ∧
     pickModeKey [3, 3, 5] = pickModeKey [5, 3, 3]) :=
  ⟨by decide, by decide,
   baseline_mode_perm_invariant [3, 3, 5] [5, 3, 3] (by decide) (by decide)⟩

/-- C10: the calibrator's pick attains the maximal frequency, and among all
values attaining the maximal frequency it is the numerically largest (the
ascending integer-key enumeration together with the ties-go-to-the-later-key
reduction makes the largest tied value win). -/
theorem baseline_tie_break_largest (l : List ℕ) (hne : l ≠ []) :
    pickModeKey l ∈ l ∧ (∀ v, l.count v ≤ l.count (pickModeKey l)) ∧
    ∀ v ∈ l, (∀ u, l.count u ≤ l.count v) → v ≤ pickModeKey l := by
  obtain ⟨w, hw⟩ := List.exists_mem_of_ne_nil l hne
  have hkeys : w ∈ jsObjectKeys l := (mem_jsObjectKeys l w).mpr hw
  obtain ⟨k, ks, hks⟩ : ∃ k ks, jsObjectKeys l = k :: ks := by
    cases h : jsObjectKeys l with
    | nil => rw [h] at hkeys; exact absurd hkeys (List.not_mem_nil w)
    | cons k ks => exact ⟨k, ks, rfl⟩
  have hpick : pickModeKey l =
      ks.foldl (fun a b => if l.count a > l.count b then a else b) k := by
    rw [pickModeKey, hks]
  have hsorted : List.Pairwise (· < ·) (k :: ks) := by
    rw [← hks]; exact jsObjectKeys_sorted l
  refine ⟨?_, ?_, ?_⟩
  · rw [hpick]
    have h1 := pickFold_mem (fun v => l.count v) ks k
    have h2 : ks.foldl (fun a b => if l.count a > l.count b then a else b) k ∈
        jsObjectKeys l := by
      rw [hks]; exact h1
    exact (mem_jsObjectKeys l _).mp h2
  · intro v
    by_cases hv : v ∈ l
    · have hvk : v ∈ k :: ks := by rw [← hks]; exact (mem_jsObjectKeys l v).mpr hv
      rw [hpick]
      exact pickFold_count_ge (fun v => l.count v) ks k v hvk
    · rw [List.count_eq_zero_of_not_mem hv]
      exact Nat.zero_le _
  · intro v hv hmax
    have hvk : v ∈ k :: ks := by rw [← hks]; exact (mem_jsObjectKeys l v).mpr hv
    rw [hpick]
    exact pickFold_largest (fun v => l.count v) ks k hsorted v hvk
      (hmax (ks.foldl (fun a b => if l.count a > l.count b then a else b) k))

/-- Witness for the C10 theorem at a concrete list with a frequency tie. -/
theorem baseline_tie_break_largest_witness :
    ([3, 5, 3, 5] : List ℕ) ≠ [] ∧
    (pickModeKey [3, 5, 3, 5] ∈ ([3, 5, 3, 5] : List ℕ) ∧
     (∀ v, ([3, 5, 3, 5] : List ℕ).count v ≤
        ([3, 5, 3, 5] : List ℕ).count (pickModeKey [3, 5, 3, 5])) ∧
     ∀ v ∈ ([3, 5, 3, 5] : List ℕ),
       (∀ u, ([3, 5, 3, 5] : List ℕ).count u ≤ ([3, 5, 3, 5] : List ℕ).count v) →
         v ≤ pickModeKey [3, 5, 3, 5]) :=
  ⟨by decide, baseline_tie_break_largest [3, 5, 3, 5] (by decide)⟩

/-! ## Outline Tracer lemmas -/

lemma takeWhile_true_getD (l : List Bool) (j : ℕ)
    (hj : j < (l.takeWhile (fun c => c)).length) : l.getD j false = true := by
  induction l generalizing j with
  | nil => simp at hj
  | cons a t ih =>
    cases a with
    | false =>
      rw [List.takeWhile_cons_of_neg (by simp)] at hj
      simp at hj
    | true =>
      rw [List.takeWhile_cons_of_pos rfl] at hj
      cases j with
      | zero => rfl
      | succ j2 =>
        rw [List.getD_cons_succ]
        exact ih j2 (by rw [List.length_cons] at hj; omega)

lemma getD_takeWhile_len (l : List Bool)
    (h : (l.takeWhile (fun c => c)).length < l.length) :
    l.getD (l.takeWhile (fun c => c)).length false = false := by
  induction l with
  | nil => simp at h
  | cons a t ih =>
    cases a with
    | false =>
      rw [List.takeWhile_cons_of_neg (by simp)]
      rfl
    | true =>
      rw [List.takeWhile_cons_of_pos rfl] at h ⊢
      simp only [List.length_cons] at h ⊢
      rw [List.getD_cons_succ]
      exact ih (by omega)

lemma dropWhile_true_getD (l : List Bool) (k : ℕ) :
    (l.dropWhile (fun c => c)).getD k false =
      l.getD ((l.takeWhile (fun c => c)).length + k) false := by
  induction l with
  | nil => simp
  | cons a t ih =>
    cases a with
    | false =>
      rw [List.dropWhile_cons_of_neg (by simp), List.takeWhile_cons_of_neg (by simp)]
      simp
    | true =>
      rw [List.dropWhile_cons_of_pos rfl, List.takeWhile_cons_of_pos rfl, ih,
        List.length_cons]
      have harith : (t.takeWhile (fun c => c)).length + 1 + k =
          ((t.takeWhile (fun c => c)).length + k) + 1 := by omega
      rw [harith, List.getD_cons_succ]

lemma take_drop_true_length (l : List Bool) :
    (l.takeWhile (fun c => c)).length + (l.dropWhile (fun c => c)).length = l.length := by
  conv_rhs => rw [← List.takeWhile_append_dropWhile (fun c => c) l]
  rw [List.length_append]

lemma dropWhile_true_head_false (l : List Bool) :
    (l.dropWhile (fun c => c)).getD 0 false = false := by
  rw [dropWhile_true_getD, Nat.add_zero]
  rcases Nat.lt_or_ge (l.takeWhile (fun c => c)).length l.length with h | h
  · exact getD_takeWhile_len l h
  · exact List.getD_eq_default l false h

lemma isMaxRunB_iff (bs : List Bool) (s e : ℕ) :
    isMaxRunB bs s e = true ↔
      s ≤ e ∧ e < bs.length ∧ (∀ x, s ≤ x → x ≤ e → bs.getD x false = true) ∧
      (s = 0 ∨ bs.getD (s - 1) false = false) ∧
      (e + 1 = bs.length ∨ bs.getD (e + 1) false = false) := by
  rw [isMaxRunB]
  simp only [Bool.and_eq_true, Bool.or_eq_true, decide_eq_true_eq, List.all_eq_true,
    List.mem_range, Bool.not_eq_true']
  constructor
  · rintro ⟨⟨⟨⟨h1, h2⟩, h3⟩, h4⟩, h5⟩
    refine ⟨h1, h2, ?_, h4, h5⟩
    intro x hsx hxe
    have := h3 (x - s) (by omega)
    rwa [show s + (x - s) = x by omega] at this
  · rintro ⟨h1, h2, h3, h4, h5⟩
    exact ⟨⟨⟨⟨h1, h2⟩, fun k hk => h3 (s + k) (by omega) (by omega)⟩, h4⟩, h5⟩

lemma isMaxRunB_le {bs : List Bool} {s e : ℕ} (h : isMaxRunB bs s e = true) : s ≤ e :=
  ((isMaxRunB_iff bs s e).mp h).1

lemma isMaxRunB_lt_length {bs : List Bool} {s e : ℕ} (h : isMaxRunB bs s e = true) :
    e < bs.length :=
  ((isMaxRunB_iff bs s e).mp h).2.1

lemma isMaxRunB_cons_false_zero (rest : List Bool) (e : ℕ) :
    isMaxRunB (false :: rest) 0 e = false := by
  rw [Bool.eq_false_iff]
  intro h
  obtain ⟨_, _, h3, _, _⟩ := (isMaxRunB_iff _ _ _).mp h
  have := h3 0 (le_refl 0) (Nat.zero_le e)
  simp at this

lemma isMaxRunB_cons_false (rest : List Bool) (s e : ℕ) :
    isMaxRunB (false :: rest) (s + 1) (e + 1) = isMaxRunB rest s e := by
  rw [Bool.eq_iff_iff, isMaxRunB_iff, isMaxRunB_iff]
  constructor
  · rintro ⟨h1, h2, h3, h4, h5⟩
    rw [List.length_cons] at h2
    refine ⟨by omega, by omega, ?_, ?_, ?_⟩
    · intro x hsx hxe
      have := h3 (x + 1) (by omega) (by omega)
      rwa [List.getD_cons_succ] at this
    · rcases h4 with h | h
      · omega
      · cases s with
        | zero => exact Or.inl rfl
        | succ s2 =>
          right
          rwa [show s2 + 1 + 1 - 1 = s2 + 1 by omega, List.getD_cons_succ] at h
    · rcases h5 with h | h
      · left; rw [List.length_cons] at h; omega
      · right; rwa [List.getD_cons_succ] at h
  · rintro ⟨h1, h2, h3, h4, h5⟩
    refine ⟨by omega, by rw [List.length_cons]; omega, ?_, ?_, ?_⟩
    · intro x hsx hxe
      cases x with
      | zero => omega
      | succ x2 => rw [List.getD_cons_succ]; exact h3 x2 (by omega) (by omega)
    · right
      rcases h4 with rfl | h
      · simp
      · cases s with
        | zero => simp
        | succ s2 =>
          rw [show s2 + 1 + 1 - 1 = s2 + 1 by omega, List.getD_cons_succ]
          rwa [show s2 + 1 - 1 = s2 by omega] at h
    · rcases h5 with h | h
      · left; rw [List.length_cons]; omega
      · right; rwa [List.getD_cons_succ]

lemma takeWhile_true_length_le (l : List Bool) :
    (l.takeWhile (fun c => c)).length ≤ l.length := by
  have := take_drop_true_length l
  omega

lemma cons_true_getD_le (rest : List Bool) (x : ℕ)
    (hx : x ≤ (rest.takeWhile (fun c => c)).length) :
    (true :: rest).getD x false = true := by
  cases x with
  | zero => rfl
  | succ j =>
    rw [List.getD_cons_succ]
    exact takeWhile_true_getD rest j (by omega)

lemma cons_true_getD_next (rest : List Bool) :
    (true :: rest).getD ((rest.takeWhile (fun c => c)).length + 1) false = false := by
  rw [List.getD_cons_succ]
  rcases Nat.lt_or_ge (rest.takeWhile (fun c => c)).length rest.length with h | h
  · exact getD_takeWhile_len rest h
  · exact List.getD_eq_default rest false h

lemma cons_true_getD_shift (rest : List Bool) (k : ℕ) :
    (true :: rest).getD ((rest.takeWhile (fun c => c)).length + 1 + k) false =
      (rest.dropWhile (fun c => c)).getD k false := by
  rw [show (rest.takeWhile (fun c => c)).length + 1 + k =
      ((rest.takeWhile (fun c => c)).length + k) + 1 by omega,
    List.getD_cons_succ, dropWhile_true_getD]

lemma isMaxRunB_cons_true_zero (rest : List Bool) (e : ℕ) :
    isMaxRunB (true :: rest) 0 e = true ↔ e = (rest.takeWhile (fun c => c)).length := by
  constructor
  · intro h
    obtain ⟨_, h2, h3, _, h5⟩ := (isMaxRunB_iff _ _ _).mp h
    by_contra hne
    rcases Nat.lt_or_ge e (rest.takeWhile (fun c => c)).length with hlt | hge
    · have htrue := cons_true_getD_le rest (e + 1) (by omega)
      rcases h5 with h | h
      · rw [List.length_cons] at h
        have := takeWhile_true_length_le rest
        omega
      · rw [h] at htrue
        simp at htrue
    · have := h3 ((rest.takeWhile (fun c => c)).length + 1) (by omega) (by omega)
      rw [cons_true_getD_next] at this
      simp at this
  · rintro rfl
    refine (isMaxRunB_iff _ _ _).mpr
      ⟨Nat.zero_le _, ?_, ?_, Or.inl rfl, Or.inr (cons_true_getD_next rest)⟩
    · rw [List.length_cons]
      have := takeWhile_true_length_le rest
      omega
    · intro x _ hxe
      exact cons_true_getD_le rest x hxe

lemma isMaxRunB_cons_true_low (rest : List Bool) (s e : ℕ) (hs1 : 1 ≤ s)
    (hs2 : s ≤ (rest.takeWhile (fun c => c)).length + 1) :
    isMaxRunB (true :: rest) s e = false := by
  rw [Bool.eq_false_iff]
  intro h
  obtain ⟨_, _, _, h4, _⟩ := (isMaxRunB_iff _ _ _).mp h
  rcases h4 with h | h
  · omega
  · have := cons_true_getD_le rest (s - 1) (by omega)
    rw [h] at this
    simp at this

lemma isMaxRunB_cons_true_shift (rest : List Bool) (s1 e1 : ℕ) :
    isMaxRunB (true :: rest) ((rest.takeWhile (fun c => c)).length + 1 + s1)
        ((rest.takeWhile (fun c => c)).length + 1 + e1) =
      isMaxRunB (rest.dropWhile (fun c => c)) s1 e1 := by
  have hmle := take_drop_true_length rest
  rw [Bool.eq_iff_iff, isMaxRunB_iff, isMaxRunB_iff]
  constructor
  · rintro ⟨h1, h2, h3, h4, h5⟩
    rw [List.length_cons] at h2
    refine ⟨by omega, by omega, ?_, ?_, ?_⟩
    · intro x hsx hxe
      have := h3 ((rest.takeWhile (fun c => c)).length + 1 + x) (by omega) (by omega)
      rwa [cons_true_getD_shift] at this
    · cases s1 with
      | zero => exact Or.inl rfl
      | succ s2 =>
        right
        rcases h4 with h | h
        · omega
        · rw [show (rest.takeWhile (fun c => c)).length + 1 + (s2 + 1) - 1 =
              (rest.takeWhile (fun c => c)).length + 1 + s2 by omega,
            cons_true_getD_shift] at h
          rwa [show s2 + 1 - 1 = s2 by omega]
    · rcases h5 with h | h
      · left
        rw [List.length_cons] at h
        omega
      · right
        rw [show (rest.takeWhile (fun c => c)).length + 1 + e1 + 1 =
            (rest.takeWhile (fun c => c)).length + 1 + (e1 + 1) by omega,
          cons_true_getD_shift] at h
        exact h
  · rintro ⟨h1, h2, h3, h4, h5⟩
    refine ⟨by omega, by rw [List.length_cons]; omega, ?_, ?_, ?_⟩
    · intro x hsx hxe
      rw [show x = (rest.takeWhile (fun c => c)).length + 1 +
          (x - ((rest.takeWhile (fun c => c)).length + 1)) by omega,
        cons_true_getD_shift]
      exact h3 _ (by omega) (by omega)
    · right
      cases s1 with
      | zero =>
        exfalso
        have h0 := h3 0 (le_refl 0) (by omega)
        rw [dropWhile_true_head_false] at h0
        simp at h0
      | succ s2 =>
        rw [show (rest.takeWhile (fun c => c)).length + 1 + (s2 + 1) - 1 =
            (rest.takeWhile (fun c => c)).length + 1 + s2 by omega,
          cons_true_getD_shift]
        rcases h4 with h | h
        · omega
        · rwa [show s2 + 1 - 1 = s2 by omega] at h
    · rcases h5 with h | h
      · left
        rw [List.length_cons]
        omega
      · right
        rw [show (rest.takeWhile (fun c => c)).length + 1 + e1 + 1 =
            (rest.takeWhile (fun c => c)).length + 1 + (e1 + 1) by omega,
          cons_true_getD_shift]
        exact h

lemma flatMap_nil_of_forall {α β : Type} (l : List α) (f : α → List β)
    (h : ∀ a ∈ l, f a = []) : l.flatMap f = [] := by
  induction l with
  | nil => rfl
  | cons a t ih =>
    rw [List.flatMap_cons, h a (List.mem_cons_self a t), List.nil_append]
    exact ih (fun b hb => h b (List.mem_cons_of_mem a hb))

lemma filterMap_range_point {α : Type} (k t : ℕ) (v : α) (ht : t < k) :
    (List.range k).filterMap (fun e => if e = t then some v else none) = [v] := by
  induction k with
  | zero => omega
  | succ k ih =>
    rw [List.range_succ, List.filterMap_append]
    by_cases hk : t = k
    · subst hk
      have h1 : (List.range t).filterMap (fun e => if e = t then some v else none) = [] := by
        rw [List.filterMap_eq_nil_iff]
        intro e he
        rw [if_neg (by rw [List.mem_range] at he; omega)]
      rw [h1]
      simp
    · rw [ih (by omega)]
      have hkt : ¬(k = t) := fun h => hk h.symm
      simp [hkt]

lemma filterMap_range_succ_shift {α : Type} (k : ℕ) (f : ℕ → Option α)
    (h0 : f 0 = none) :
    (List.range (k + 1)).filterMap f = (List.range k).filterMap (fun e => f (e + 1)) := by
  rw [List.range_succ_eq_map, List.filterMap_cons, h0, List.filterMap_map]
  rfl

lemma flatMap_range_succ_shift {α : Type} (k : ℕ) (f : ℕ → List α)
    (h0 : f 0 = []) :
    (List.range (k + 1)).flatMap f = (List.range k).flatMap (fun s => f (s + 1)) := by
  rw [List.range_succ_eq_map, List.flatMap_cons, h0, List.nil_append, List.flatMap_map]

lemma flatMap_range_add_shift {α : Type} (a b : ℕ) (f : ℕ → List α) :
    (List.range (a + b)).flatMap f =
      (List.range a).flatMap f ++ (List.range b).flatMap (fun s => f (a + s)) := by
  rw [List.range_add, List.flatMap_append, List.flatMap_map]

lemma filterMap_range_add_shift {α : Type} (a b : ℕ) (f : ℕ → Option α) :
    (List.range (a + b)).filterMap f =
      (List.range a).filterMap f ++ (List.range b).filterMap (fun e => f (a + e)) := by
  rw [List.range_add, List.filterMap_append, List.filterMap_map]
  rfl

lemma flatMap_range_succ_head {α : Type} (k : ℕ) (f : ℕ → List α)
    (h : ∀ s, 1 ≤ s → s ≤ k → f s = []) :
    (List.range (k + 1)).flatMap f = f 0 := by
  rw [List.range_succ_eq_map, List.flatMap_cons, List.flatMap_map]
  have h2 : (List.range k).flatMap (fun a => f a.succ) = [] :=
    flatMap_nil_of_forall _ _
      (fun s hs => h (s + 1) (by omega) (by rw [List.mem_range] at hs; omega))
  rw [h2, List.append_nil]

lemma isMaxRunB_false_of_gt {bs : List Bool} {s e : ℕ} (h : e < s) :
    isMaxRunB bs s e = false := by
  rw [Bool.eq_false_iff]
  intro hh
  have := isMaxRunB_le hh
  omega

lemma maximalRuns_cons_false (rest : List Bool) :
    maximalRuns (false :: rest) = (maximalRuns rest).map (fun p => (p.1 + 1, p.2 + 1)) := by
  rw [maximalRuns, maximalRuns, List.length_cons, List.map_flatMap]
  rw [flatMap_range_succ_shift _ _ (by
    rw [List.filterMap_eq_nil_iff]
    intro e _
    rw [isMaxRunB_cons_false_zero]
    rfl)]
  refine congrArg (List.flatMap (List.range rest.length)) (funext fun s => ?_)
  rw [filterMap_range_succ_shift _ _ (by
    have hf : isMaxRunB (false :: rest) (s + 1) 0 = false := isMaxRunB_false_of_gt (by omega)
    rw [hf]
    rfl)]
  rw [List.map_filterMap]
  refine List.filterMap_congr (fun e _ => ?_)
  rw [isMaxRunB_cons_false]
  by_cases h : isMaxRunB rest s e = true
  · simp [h]
  · have h2 : isMaxRunB rest s e = false := Bool.eq_false_iff.mpr h
    simp [h2]

lemma maximalRuns_cons_true (rest : List Bool) :
    maximalRuns (true :: rest) =
      ((0 : ℕ), (rest.takeWhile (fun c => c)).length) ::
        (maximalRuns (rest.dropWhile (fun c => c))).map
          (fun p => (p.1 + ((rest.takeWhile (fun c => c)).length + 1),
                     p.2 + ((rest.takeWhile (fun c => c)).length + 1))) := by
  have hmle := take_drop_true_length rest
  have hlen : (true :: rest).length =
      ((rest.takeWhile (fun c => c)).length + 1) + (rest.dropWhile (fun c => c)).length := by
    rw [List.length_cons]
    omega
  rw [maximalRuns, hlen, flatMap_range_add_shift]
  have hA : (List.range ((rest.takeWhile (fun c => c)).length + 1)).flatMap
      (fun s => (List.range (((rest.takeWhile (fun c => c)).length + 1) +
          (rest.dropWhile (fun c => c)).length)).filterMap
        (fun e => if isMaxRunB (true :: rest) s e then some (s, e) else none)) =
      [((0 : ℕ), (rest.takeWhile (fun c => c)).length)] := by
    rw [flatMap_range_succ_head _ _ (fun s hs1 hs2 => by
      rw [List.filterMap_eq_nil_iff]
      intro e _
      rw [isMaxRunB_cons_true_low rest s e hs1 (by omega)]
      rfl)]
    have hcongr : (List.range (((rest.takeWhile (fun c => c)).length + 1) +
        (rest.dropWhile (fun c => c)).length)).filterMap
          (fun e => if isMaxRunB (true :: rest) 0 e then some ((0 : ℕ), e) else none) =
        (List.range (((rest.takeWhile (fun c => c)).length + 1) +
        (rest.dropWhile (fun c => c)).length)).filterMap
          (fun e => if e = (rest.takeWhile (fun c => c)).length
            then some ((0 : ℕ), (rest.takeWhile (fun c => c)).length) else none) := by
      refine List.filterMap_congr (fun e _ => ?_)
      by_cases h : isMaxRunB (true :: rest) 0 e = true
      · have he := (isMaxRunB_cons_true_zero rest e).mp h
        rw [h, if_pos he, he]
        rfl
      · have h2 : isMaxRunB (true :: rest) 0 e = false := Bool.eq_false_iff.mpr h
        have hne : ¬(e = (rest.takeWhile (fun c => c)).length) := by
          intro he
          exact h ((isMaxRunB_cons_true_zero rest e).mpr he)
        rw [h2, if_neg hne]
        rfl
    rw [hcongr]
    exact filterMap_range_point _ _ _ (by omega)
  rw [hA]
  have hB : (List.range (rest.dropWhile (fun c => c)).length).flatMap
      (fun s1 => (List.range (((rest.takeWhile (fun c => c)).length + 1) +
          (rest.dropWhile (fun c => c)).length)).filterMap
        (fun e => if isMaxRunB (true :: rest) (((rest.takeWhile (fun c => c)).length + 1) + s1) e
          then some ((((rest.takeWhile (fun c => c)).length + 1) + s1), e) else none)) =
      (maximalRuns (rest.dropWhile (fun c => c))).map
        (fun p => (p.1 + ((rest.takeWhile (fun c => c)).length + 1),
                   p.2 + ((rest.takeWhile (fun c => c)).length + 1))) := by
    rw [maximalRuns, List.map_flatMap]
    refine congrArg (List.flatMap (List.range (rest.dropWhile (fun c => c)).length))
      (funext fun s1 => ?_)
    rw [filterMap_range_add_shift]
    have hfirst : (List.range ((rest.takeWhile (fun c => c)).length + 1)).filterMap
        (fun e => if isMaxRunB (true :: rest) (((rest.takeWhile (fun c => c)).length + 1) + s1) e
          then some ((((rest.takeWhile (fun c => c)).length + 1) + s1), e) else none) = [] := by
      rw [List.filterMap_eq_nil_iff]
      intro e he
      rw [List.mem_range] at he
      rw [isMaxRunB_false_of_gt (by omega)]
      rfl
    rw [hfirst, List.nil_append, List.map_filterMap]
    refine List.filterMap_congr (fun e1 _ => ?_)
    rw [isMaxRunB_cons_true_shift]
    by_cases h : isMaxRunB (rest.dropWhile (fun c => c)) s1 e1 = true
    · rw [h]
      simp [Nat.add_comm]
    · have h2 : isMaxRunB (rest.dropWhile (fun c => c)) s1 e1 = false := Bool.eq_false_iff.mpr h
      rw [h2]
      rfl
  rw [hB]
  rfl

lemma runsFrom_eq_shift : ∀ (n : ℕ) (bs : List Bool), bs.length = n → ∀ (i : ℕ),
    runsFrom bs i = (maximalRuns bs).map (fun p => (p.1 + i, p.2 + i)) := by
  intro n
  induction n using Nat.strong_induction_on with
  | _ n ih =>
    intro bs hlen i
    cases bs with
    | nil =>
      rw [runsFrom]
      rfl
    | cons b rest =>
      cases b with
      | false =>
        rw [runsFrom]
        simp only [Bool.false_eq_true, if_false]
        rw [ih rest.length (by rw [List.length_cons] at hlen; omega) rest rfl (i + 1)]
        rw [maximalRuns_cons_false, List.map_map]
        refine List.map_congr_left (fun p _ => ?_)
        simp only [Function.comp, Prod.mk.injEq]
        omega
      | true =>
        have hstep : runsFrom (true :: rest) i =
            (i, i + (1 + (rest.takeWhile (fun c => c)).length) - 1) ::
              runsFrom (rest.dropWhile (fun c => c))
                (i + (1 + (rest.takeWhile (fun c => c)).length)) := by
          rw [runsFrom]
          simp
        rw [hstep]
        have hlt : (rest.dropWhile (fun c => c)).length < n := by
          have := (rest.dropWhile_sublist (fun c => c)).length_le
          rw [List.length_cons] at hlen
          omega
        rw [ih (rest.dropWhile (fun c => c)).length hlt _ rfl]
        rw [maximalRuns_cons_true, List.map_cons, List.map_map]
        congr 1
        · simp only [Prod.mk.injEq]
          omega
        · refine List.map_congr_left (fun p _ => ?_)
          simp only [Function.comp, Prod.mk.injEq]
          omega

lemma runsFrom_eq_maximalRuns (bs : List Bool) : runsFrom bs 0 = maximalRuns bs := by
  rw [runsFrom_eq_shift bs.length bs rfl 0]
  rw [show (fun p : ℕ × ℕ => (p.1 + 0, p.2 + 0)) = (id : ℕ × ℕ → ℕ × ℕ) from
    funext fun p => by simp, List.map_id]

/-- C5: the tracer emits, row by row and in order, exactly one closed
rectangle per maximal horizontal run of opaque pixels: a run spanning columns
`[x0, x1]` at row `r` of a bitmap of height `H` yields the commands
`moveTo (x0, H-1-r)`, `lineTo (x1+1, H-1-r)`, `lineTo (x1+1, H-r)`,
`lineTo (x0, H-r)`, `closePath`, with no merging across rows. -/
theorem tracer_one_rectangle_per_maximal_run (img : ImageData) :
    imageDataToOpentypePath img (img.height : ℤ) =
      (List.range img.height).flatMap (fun r =>
        (maximalRuns (rowBools img r)).flatMap (fun se =>
          [PathCmd.move (se.1 : ℚ) ((((img.height : ℤ) - 1 - (r : ℤ)) : ℤ) : ℚ),
           PathCmd.line ((se.2 : ℚ) + 1) ((((img.height : ℤ) - 1 - (r : ℤ)) : ℤ) : ℚ),
           PathCmd.line ((se.2 : ℚ) + 1) ((((img.height : ℤ) - (r : ℤ)) : ℤ) : ℚ),
           PathCmd.line (se.1 : ℚ) ((((img.height : ℤ) - (r : ℤ)) : ℤ) : ℚ),
           PathCmd.close])) := by
  rw [imageDataToOpentypePath, traceRuns, List.flatMap_assoc]
  refine congrArg (List.flatMap (List.range img.height)) (funext fun y => ?_)
  rw [List.flatMap_map, runsFrom_eq_maximalRuns]
  rfl

lemma mem_maximalRuns (bs : List Bool) (s e : ℕ) :
    (s, e) ∈ maximalRuns bs ↔ isMaxRunB bs s e = true := by
  rw [maximalRuns]
  simp only [List.mem_flatMap, List.mem_filterMap, List.mem_range]
  constructor
  · rintro ⟨s2, hs2, e2, he2, hif⟩
    by_cases h : isMaxRunB bs s2 e2 = true
    · rw [if_pos h] at hif
      have hp := Option.some.inj hif
      obtain ⟨rfl, rfl⟩ : s2 = s ∧ e2 = e :=
        ⟨congrArg Prod.fst hp, congrArg Prod.snd hp⟩
      exact h
    · rw [if_neg h] at hif
      exact absurd hif (by simp)
  · intro h
    have hc := (isMaxRunB_iff bs s e).mp h
    exact ⟨s, by omega, e, by omega, by rw [if_pos h]⟩

lemma exists_run_left (bs : List Bool) (x : ℕ) (hb : bs.getD x false = true) :
    ∃ s, s ≤ x ∧ (∀ j, s ≤ j → j ≤ x → bs.getD j false = true) ∧
      (s = 0 ∨ bs.getD (s - 1) false = false) := by
  induction x with
  | zero =>
    refine ⟨0, le_refl 0, ?_, Or.inl rfl⟩
    intro j h1 h2
    have hj : j = 0 := by omega
    rwa [hj]
  | succ n ih =>
    cases hprev : bs.getD n false with
    | false =>
      refine ⟨n + 1, le_refl _, ?_, Or.inr (by simpa using hprev)⟩
      intro j h1 h2
      have hj : j = n + 1 := by omega
      rwa [hj]
    | true =>
      obtain ⟨s, hs1, hs2, hs3⟩ := ih hprev
      refine ⟨s, by omega, ?_, hs3⟩
      intro j h1 h2
      rcases Nat.lt_or_ge j (n + 1) with h | h
      · exact hs2 j h1 (by omega)
      · have hj : j = n + 1 := by omega
        rwa [hj]

lemma exists_run_right (bs : List Bool) :
    ∀ (d x : ℕ), bs.length - x = d → x < bs.length → bs.getD x false = true →
      ∃ e, x ≤ e ∧ e < bs.length ∧ (∀ j, x ≤ j → j ≤ e → bs.getD j false = true) ∧
        (e + 1 = bs.length ∨ bs.getD (e + 1) false = false) := by
  intro d
  induction d using Nat.strong_induction_on with
  | _ d ih =>
    intro x hd hx hb
    by_cases hnext : x + 1 = bs.length
    · refine ⟨x, le_refl _, hx, ?_, Or.inl hnext⟩
      intro j h1 h2
      have hj : j = x := by omega
      rwa [hj]
    · have hx1 : x + 1 < bs.length := by omega
      cases hnb : bs.getD (x + 1) false with
      | false =>
        refine ⟨x, le_refl _, hx, ?_, Or.inr hnb⟩
        intro j h1 h2
        have hj : j = x := by omega
        rwa [hj]
      | true =>
        obtain ⟨e, he1, he2, he3, he4⟩ :=
          ih (bs.length - (x + 1)) (by omega) (x + 1) rfl hx1 hnb
        refine ⟨e, by omega, he2, ?_, he4⟩
        intro j h1 h2
        rcases Nat.lt_or_ge j (x + 1) with h | h
        · have hj : j = x := by omega
          rwa [hj]
        · exact he3 j h h2

lemma exists_maxRun (bs : List Bool) (x : ℕ) (hx : x < bs.length)
    (hb : bs.getD x false = true) :
    ∃ s e, isMaxRunB bs s e = true ∧ s ≤ x ∧ x ≤ e := by
  obtain ⟨s, hs1, hs2, hs3⟩ := exists_run_left bs x hb
  obtain ⟨e, he1, he2, he3, he4⟩ := exists_run_right bs (bs.length - x) x rfl hx hb
  refine ⟨s, e, (isMaxRunB_iff bs s e).mpr ⟨by omega, he2, ?_, hs3, he4⟩, hs1, he1⟩
  intro j h1 h2
  rcases Nat.le_total j x with h | h
  · exact hs2 j h1 h
  · exact he3 j h h2

lemma rowBools_length (img : ImageData) (y : ℕ) : (rowBools img y).length = img.width := by
  simp [rowBools]

lemma rowBools_getD (img : ImageData) (y x : ℕ) (hx : x < img.width) :
    (rowBools img y).getD x false = isOpaqueAt img x y := by
  rw [rowBools, List.getD_eq_getElem?_getD, List.getElem?_map, List.getElem?_range hx]
  rfl

lemma contours_imageDataToOpentypePath (img : ImageData) (H : ℤ) :
    contoursAux [] (imageDataToOpentypePath img H) =
      (traceRuns img).map
        (fun t => rectCmds t.1 t.2.1 (H - 1 - (t.2.2 : ℤ)) (H - (t.2.2 : ℤ))) := by
  rw [imageDataToOpentypePath]
  generalize traceRuns img = l
  induction l with
  | nil => rfl
  | cons a t ih =>
    rw [List.flatMap_cons, List.map_cons]
    simp only [rectCmds, List.cons_append, List.nil_append]
    simp only [contoursAux, List.reverse_cons, List.reverse_nil, List.nil_append,
      List.cons_append, List.append_nil]
    simp only [rectCmds] at ih
    rw [ih]

lemma cellCovered_rectCmds (s e : ℕ) (hse : s ≤ e) (yb yt : ℤ) (hy : yb ≤ yt)
    (H : ℤ) (px py : ℕ) :
    cellCoveredByRect ((rectCmds s e yb yt).filterMap cmdPoint) H px py = true ↔
      (s ≤ px ∧ px ≤ e ∧ yb ≤ H - 1 - (py : ℤ) ∧ H - (py : ℤ) ≤ yt) := by
  have hseq : (s : ℚ) ≤ (e : ℚ) + 1 := by
    have h1 : (s : ℚ) ≤ (e : ℚ) := by exact_mod_cast hse
    linarith
  have hyq : (yb : ℚ) ≤ (yt : ℚ) := by exact_mod_cast hy
  have hpts : (rectCmds s e yb yt).filterMap cmdPoint =
      [((s : ℚ), (yb : ℚ)), ((e : ℚ) + 1, (yb : ℚ)), ((e : ℚ) + 1, (yt : ℚ)),
       ((s : ℚ), (yt : ℚ))] := rfl
  rw [hpts]
  simp only [cellCoveredByRect, List.foldl_cons, List.foldl_nil, decide_eq_true_eq]
  rw [min_eq_left hseq, min_eq_left hseq, min_self,
    max_eq_right hseq, max_self, max_eq_left hseq,
    min_self, min_eq_left hyq, min_eq_left hyq,
    max_self, max_eq_right hyq, max_self]
  constructor
  · rintro ⟨h1, h2, h3, h4⟩
    refine ⟨by exact_mod_cast h1, ?_, by exact_mod_cast h3, by exact_mod_cast h4⟩
    have h5 : (px : ℚ) ≤ (e : ℚ) := by linarith
    exact_mod_cast h5
  · rintro ⟨h1, h2, h3, h4⟩
    refine ⟨by exact_mod_cast h1, ?_, by exact_mod_cast h3, by exact_mod_cast h4⟩
    have h5 : (px : ℚ) ≤ (e : ℚ) := by exact_mod_cast h2
    linarith

/-- C4: re-rasterizing the traced outline at 1 font unit = 1 pixel reproduces
exactly the bitmap's opaque/transparent mask: a pixel of the bitmap is covered
by some rectangle of the outline if and only if its alpha exceeds 128. -/
theorem tracer_raster_round_trip (img : ImageData) (px py : ℕ)
    (hx : px < img.width) (hy : py < img.height) :
    rasterCovered (imageDataToOpentypePath img (img.height : ℤ))
        (img.height : ℤ) px py = true ↔
      128 < alphaAt img px py := by
  rw [rasterCovered, contours, contours_imageDataToOpentypePath, List.any_eq_true]
  constructor
  · rintro ⟨c, hc, hcov⟩
    rw [List.mem_map] at hc
    obtain ⟨t, ht, rfl⟩ := hc
    rw [traceRuns] at ht
    simp only [List.mem_flatMap, List.mem_map, List.mem_range] at ht
    obtain ⟨y, hy2, se, hse, rfl⟩ := ht
    obtain ⟨s, e⟩ := se
    dsimp only at hcov
    have hrun := (mem_maximalRuns _ s e).mp (by rwa [runsFrom_eq_maximalRuns] at hse)
    obtain ⟨hse2, hlen2, hall, _, _⟩ := (isMaxRunB_iff _ _ _).mp hrun
    rw [cellCovered_rectCmds s e hse2 _ _ (by omega) _ px py] at hcov
    obtain ⟨h1, h2, h3, h4⟩ := hcov
    have hy3 : y = py := by omega
    subst hy3
    have hopq := hall px h1 h2
    rw [rowBools_length] at hlen2
    rw [rowBools_getD img y px (by omega)] at hopq
    simpa [isOpaqueAt] using hopq
  · intro hb
    have hrow : (rowBools img py).getD px false = true := by
      rw [rowBools_getD img py px hx, isOpaqueAt]
      simp only [decide_eq_true_eq]
      exact hb
    obtain ⟨s, e, hrun, hs, he⟩ := exists_maxRun (rowBools img py) px
      (by rw [rowBools_length]; exact hx) hrow
    refine ⟨rectCmds s e ((img.height : ℤ) - 1 - (py : ℤ)) ((img.height : ℤ) - (py : ℤ)),
      ?_, ?_⟩
    · rw [List.mem_map]
      refine ⟨(s, e, py), ?_, rfl⟩
      rw [traceRuns]
      simp only [List.mem_flatMap, List.mem_map, List.mem_range]
      exact ⟨py, hy, ⟨(s, e),
        by rw [runsFrom_eq_maximalRuns]; exact (mem_maximalRuns _ s e).mpr hrun, rfl⟩⟩
    · rw [cellCovered_rectCmds s e (isMaxRunB_le hrun) _ _ (by omega) _ px py]
      exact ⟨hs, he, by omega, by omega⟩

/-- Witness for the C4 theorem at a concrete 2×1 bitmap. -/
theorem tracer_raster_round_trip_witness :
    0 < (ImageData.mk 2 1 [0, 0, 0, 200, 0, 0, 0, 0]).width ∧
    0 < (ImageData.mk 2 1 [0, 0, 0, 200, 0, 0, 0, 0]).height ∧
    (rasterCovered
        (imageDataToOpentypePath (ImageData.mk 2 1 [0, 0, 0, 200, 0, 0, 0, 0])
          ((ImageData.mk 2 1 [0, 0, 0, 200, 0, 0, 0, 0]).height : ℤ))
        ((ImageData.mk 2 1 [0, 0, 0, 200, 0, 0, 0, 0]).height : ℤ) 0 0 = true ↔
      128 < alphaAt (ImageData.mk 2 1 [0, 0, 0, 200, 0, 0, 0, 0]) 0 0) :=
  ⟨by decide, by decide,
   tracer_raster_round_trip (ImageData.mk 2 1 [0, 0, 0, 200, 0, 0, 0, 0]) 0 0
     (by decide) (by decide)⟩
